import Mathlib

/-!
Verification of the metal simulation engine (metal_simulate.py).

The development shallowly embeds the simulator core:
* Node (metal_simulate.py lines 298-335): width, _value, buffered next, is_reg.
* LogicSim.add_event (lines 63-80): deduplicating appendleft onto the event queue.
* LogicSim.cycle (lines 40-61): drain the event queue (pop from the right),
  run the posedge functions, then clock() every register, bump num_cycles.
* LogicSim.generate's node-creation loop (lines 97-103).
* LogicSim.find_node_groupings / add_to_node_groups (lines 123-154).

Reactions (the bodies of @combinational / @posedge_clk functions) are modelled
as straight-line sequences of writes "node.value = expr" where an expression is
a constant or a read of a node's value property; this is exactly the shape the
engine's claims exercise.  Machine values are Nat (the setter stores the python
integer unmasked: "self._value = value").
-/

namespace Metal

/-- Embeds the Node class (metal_simulate.py lines 298-335).  The python object
only gains a "next" attribute at the first register write, so "next" is an
Option: "none" models the attribute being absent (reading it raises
AttributeError). -/
structure Node where
  width : Nat
  value : Nat
  next : Option Nat
  is_reg : Bool
deriving DecidableEq

/-- An expression a reaction body can evaluate: a literal or a read of a
node's value property (the getter returns _value for wires and registers
alike, lines 321-324). -/
inductive Expr where
  | const (n : Nat)
  | read (id : Nat)
deriving DecidableEq

/-- Mutable simulator state: the node heap (nodes addressed by list index),
the event queue (list head = left end of the python deque, so appendleft is
List.cons and pop takes the last element), and num_cycles. -/
structure SimState where
  nodes : List Node
  event_queue : List Nat
  num_cycles : Nat
deriving DecidableEq

/-- Immutable build-time data of a LogicSim: reaction bodies, the
vnode_callbacks sensitivity map (a missing key is the empty list, matching
"if value_node in self.vnode_callbacks"), the posedge functions and the
registered register nodes. -/
structure SimConfig where
  funcs : Nat → List (Nat × Expr)
  vnode_callbacks : Nat → List Nat
  posedge_clk_fns : List Nat
  rnode_callbacks : List Nat

/-- The default Node used for an out-of-range heap read (never exercised by
well-formed configurations). -/
def defaultNode : Node := ⟨0, 0, none, false⟩

def getNode (st : SimState) (id : Nat) : Node := st.nodes.getD id defaultNode

/-- Evaluate an expression against the current state. -/
def evalExpr (st : SimState) : Expr → Nat
  | .const n => n
  | .read id => (getNode st id).value

/-- Embeds the body of LogicSim.add_event (lines 76-80): for each callback of
the written node, appendleft it unless it is already pending. -/
def enqueueFuncs (fs : List Nat) (q : List Nat) : List Nat :=
  fs.foldl (fun q f => if f ∈ q then q else f :: q) q

/-- Embeds LogicSim.add_event (lines 63-80). -/
def add_event (cfg : SimConfig) (id : Nat) (st : SimState) : SimState :=
  { st with event_queue := enqueueFuncs (cfg.vnode_callbacks id) st.event_queue }

/-- Embeds the Node.value setter (lines 325-331): a register write buffers
into next; a wire write first calls sim.add_event(self) and then assigns
_value. -/
def setValue (cfg : SimConfig) (id : Nat) (v : Nat) (st : SimState) : SimState :=
  let n := getNode st id
  if n.is_reg then
    { st with nodes := st.nodes.set id { n with next := some v } }
  else
    let st1 := add_event cfg id st
    { st1 with nodes := st1.nodes.set id { n with value := v } }

/-- Run one reaction body: perform its writes in order. -/
def execWrites (cfg : SimConfig) (ws : List (Nat × Expr)) (st : SimState) : SimState :=
  ws.foldl (fun s w => setValue cfg w.1 (evalExpr s w.2) s) st

/-- Run the reaction with the given handle. -/
def runFunc (cfg : SimConfig) (f : Nat) (st : SimState) : SimState :=
  execWrites cfg (cfg.funcs f) st

/-- Embeds deque.pop(): remove and return the rightmost element. -/
def splitLast : List Nat → Option (List Nat × Nat)
  | [] => none
  | a :: rest =>
    match splitLast rest with
    | none => some ([], a)
    | some (q, f) => some (a :: q, f)

/-- Failure modes of a run.  outOfFuel is an artifact of embedding the
unbounded "while self.event_queue" loop (lines 49-51) with explicit fuel: the
python loop itself has no cap and simply keeps running.  attributeError models
the AttributeError raised by Node.clock when self.next was never assigned
(line 335). -/
inductive SimErr where
  | outOfFuel (pending : List Nat)
  | attributeError (id : Nat)
deriving DecidableEq

/-- Embeds the event-queue loop of LogicSim.cycle (lines 49-51) with explicit
fuel, also returning the trace of executed reaction handles in execution
order.  One iteration pops the rightmost queue element and runs it. -/
def drainFuel (cfg : SimConfig) : Nat → SimState → Except SimErr (SimState × List Nat)
  | 0, st =>
    if st.event_queue = [] then .ok (st, [])
    else .error (.outOfFuel st.event_queue)
  | n + 1, st =>
    match splitLast st.event_queue with
    | none => .ok (st, [])
    | some (q, f) =>
      match drainFuel cfg n (runFunc cfg f { st with event_queue := q }) with
      | .ok (st', t) => .ok (st', f :: t)
      | .error e => .error e

/-- One iteration of the event-queue loop body (lines 49-51): none when the
queue is empty (the loop exits), otherwise the state after popping and running
the rightmost pending reaction. -/
def drainStep (cfg : SimConfig) (st : SimState) : Option SimState :=
  match splitLast st.event_queue with
  | none => none
  | some (q, f) => some (runFunc cfg f { st with event_queue := q })

/-- Embeds Node.clock (lines 333-335): "self._value = self.next".  Reading an
absent next attribute raises, so the result is none when next was never
assigned; note that next is kept, not cleared. -/
def clockNode (n : Node) : Option Node :=
  match n.next with
  | none => none
  | some v => some { n with value := v }

/-- Embeds the commit loop of cycle (lines 57-59): call clock() on every
registered register node, in order. -/
def clockAll : List Nat → SimState → Except SimErr SimState
  | [], st => .ok st
  | r :: rs, st =>
    match clockNode (getNode st r) with
    | none => .error (.attributeError r)
    | some n' => clockAll rs { st with nodes := st.nodes.set r n' }

/-- Embeds the posedge phase of cycle (lines 53-55). -/
def runPosedge (cfg : SimConfig) (st : SimState) : SimState :=
  cfg.posedge_clk_fns.foldl (fun s f => runFunc cfg f s) st

/-- Embeds LogicSim.cycle (lines 40-61): drain the event queue, run the
posedge functions, clock all registers, increment num_cycles. -/
def cycle (cfg : SimConfig) (fuel : Nat) (st : SimState) : Except SimErr SimState :=
  match drainFuel cfg fuel st with
  | .error e => .error e
  | .ok (st1, _) =>
    match clockAll cfg.rnode_callbacks (runPosedge cfg st1) with
    | .error e => .error e
    | .ok st3 => .ok { st3 with num_cycles := st3.num_cycles + 1 }

/-! ### Concrete instances used by the claims -/

/-- A register node holding v (next not yet assigned). -/
def mkReg (v : Nat) : Node := ⟨8, v, none, true⟩

/-- Two-register swap circuit for claim C1: one posedge function computing
next(A) = current(B); next(B) = current(A). -/
def cfgSwap : SimConfig :=
  { funcs := fun _ => [(0, .read 1), (1, .read 0)]
    vnode_callbacks := fun _ => []
    posedge_clk_fns := [0]
    rnode_callbacks := [0, 1] }

def stSwap (a b : Nat) : SimState := ⟨[mkReg a, mkReg b], [], 0⟩

/-- Cyclic sensitivity circuit for claim C2: wire node 0 has callback function
0, whose body writes node 0 again.  Its value is already 5, so one loop
iteration reproduces the state exactly. -/
def cfgCyc : SimConfig :=
  { funcs := fun _ => [(0, .const 5)]
    vnode_callbacks := fun id => if id = 0 then [0] else []
    posedge_clk_fns := []
    rnode_callbacks := [] }

def stCyc : SimState := ⟨[⟨1, 5, none, false⟩], [0], 0⟩

/-! ### Lemmas for C1 and C2 -/

lemma setValue_reg (cfg : SimConfig) (id : Nat) (v : Nat) (st : SimState)
    (h : (getNode st id).is_reg = true) :
    setValue cfg id v st =
      { st with nodes := st.nodes.set id { getNode st id with next := some v } } := by
  simp [setValue, h]

lemma stCyc_fix : runFunc cfgCyc 0 { stCyc with event_queue := [] } = stCyc := by
  decide

lemma drainFuel_cyc (n : Nat) :
    drainFuel cfgCyc n stCyc = .error (.outOfFuel [0]) := by
  induction n with
  | zero => rfl
  | succ n ih =>
    have hstep : drainFuel cfgCyc (n + 1) stCyc
        = match drainFuel cfgCyc n (runFunc cfgCyc 0 { stCyc with event_queue := [] }) with
          | .ok (st', t) => .ok (st', 0 :: t)
          | .error e => .error e := by
      rfl
    rw [hstep, stCyc_fix, ih]

/-! ### Claim theorems C1 and C2 -/

/-- Claim C1: register atomicity.  For the two-register swap circuit, one
cycle() leaves A holding B's prior value and B holding A's prior value
(first conjunct, for all prior values a b); and during the clock-edge phase a
write to a REGISTER-mode node mutates only the buffered next — the node's
current value, every other node, and the event queue are untouched, current
changing only at the later clock() commit (second conjunct). -/
theorem C1_register_atomicity :
    (∀ a b : Nat,
      cycle cfgSwap 1 (stSwap a b) =
        .ok ⟨[⟨8, b, some b, true⟩, ⟨8, a, some a, true⟩], [], 1⟩) ∧
    (∀ (cfg : SimConfig) (id v : Nat) (st : SimState),
      (getNode st id).is_reg = true →
      setValue cfg id v st =
        { st with nodes := st.nodes.set id { getNode st id with next := some v } }) := by
  constructor
  · intro a b
    rfl
  · intro cfg id v st h
    exact setValue_reg cfg id v st h

/-- Witness for C1: the swap at a = 3, b = 7, and the buffered-write property
at a concrete register state. -/
theorem C1_register_atomicity_witness :
    cycle cfgSwap 1 (stSwap 3 7) =
      .ok ⟨[⟨8, 7, some 7, true⟩, ⟨8, 3, some 3, true⟩], [], 1⟩ ∧
    setValue cfgSwap 0 9 (stSwap 3 7) =
      { stSwap 3 7 with
          nodes := (stSwap 3 7).nodes.set 0 { getNode (stSwap 3 7) 0 with next := some 9 } } :=
  ⟨C1_register_atomicity.1 3 7,
   C1_register_atomicity.2 cfgSwap 0 9 (stSwap 3 7) (by decide)⟩

/-- Counterexample to claim C2: the event-queue loop of cycle() has no
iteration cap.  On the concrete cyclic circuit cfgCyc, settlement has still
not completed after one million loop iterations (the outOfFuel outcome is the
embedding's fuel artifact — the python loop itself just keeps running), and
one iteration of the loop body reproduces the state exactly, so no allotment
of iterations ever completes it. -/
theorem C2_counterexample_no_cap :
    drainFuel cfgCyc 1000000 stCyc = .error (.outOfFuel [0]) ∧
    drainStep cfgCyc stCyc = some stCyc :=
  ⟨drainFuel_cyc 1000000, by decide⟩

/-- Claim C2 (amended): the settlement loop enforces no iteration cap; it pops
and runs reactions until the queue empties, and on a circuit whose sensitivity
graph is cyclic one iteration of the loop body reproduces the state exactly
(with a nonempty queue), so the loop never exits and no pending-reaction
report is produced. -/
theorem C2_drain_unbounded :
    drainStep cfgCyc stCyc = some stCyc ∧
    stCyc.event_queue ≠ [] ∧
    (∀ n : Nat, drainFuel cfgCyc n stCyc = .error (.outOfFuel [0])) := by
  refine ⟨by decide, by decide, drainFuel_cyc⟩

/-! ### generate(): the node-creation loop (lines 97-103) -/

/-- A port as seen by the node-creation loop of LogicSim.generate: a declared
width and the optional pre-assigned cell (port._value before the loop runs;
cells are identified by numeric ids standing for python object identity). -/
structure Port where
  width : Nat
  value : Option Nat
deriving DecidableEq

/-- Embeds "max([port.width for port in group])" (line 98); python max raises
on an empty group, which the resolver never produces, so the 0 base is never
the result on the groups generate actually sees. -/
def maxWidth (g : List Port) : Nat := (g.map Port.width).foldl max 0

/-- Embeds one iteration of the loop at lines 97-103 applied to a group: a
fresh Node (id k) is created, and each port of the group whose _value is
falsy receives it; ports with a pre-assigned cell are left untouched. -/
def assignGroup (k : Nat) (g : List Port) : List Port :=
  g.map (fun p => if p.value = none then { p with value := some k } else p)

/-- Embeds the full node-creation loop of LogicSim.generate (lines 97-103)
over the resolved groups.  Fresh cell ids are k, k+1, ... (the caller picks k
larger than every pre-assigned id, mirroring distinct object identity).
Returns the updated groups together with the created cells as (id, width)
pairs, one per group. -/
def generateCells : List (List Port) → Nat → List (List Port) × List (Nat × Nat)
  | [], _ => ([], [])
  | g :: gs, k =>
    let r := generateCells gs (k + 1)
    (assignGroup k g :: r.1, (k, maxWidth g) :: r.2)

lemma generateCells_fst_length (gs : List (List Port)) (k : Nat) :
    ((generateCells gs k).1).length = gs.length := by
  induction gs generalizing k with
  | nil => rfl
  | cons g gs ih => simp [generateCells, ih]

lemma generateCells_snd_length (gs : List (List Port)) (k : Nat) :
    ((generateCells gs k).2).length = gs.length := by
  induction gs generalizing k with
  | nil => rfl
  | cons g gs ih => simp [generateCells, ih]

lemma generateCells_fst_getD (gs : List (List Port)) (k i : Nat) :
    ((generateCells gs k).1).getD i [] =
      (gs.getD i []).map
        (fun p => if p.value = none then { p with value := some (k + i) } else p) := by
  induction gs generalizing k i with
  | nil => simp [generateCells]
  | cons g gs ih =>
    cases i with
    | zero => simp [generateCells, assignGroup]
    | succ i =>
      have h : k + (i + 1) = k + 1 + i := by omega
      simp only [generateCells, List.getD_cons_succ, ih (k + 1) i, h]

lemma generateCells_snd_getD (gs : List (List Port)) (k i : Nat) (h : i < gs.length) :
    ((generateCells gs k).2).getD i (0, 0) = (k + i, maxWidth (gs.getD i [])) := by
  induction gs generalizing k i with
  | nil => simp at h
  | cons g gs ih =>
    cases i with
    | zero => simp [generateCells]
    | succ i =>
      have h' : i < gs.length := by simpa using h
      have hk : k + (i + 1) = k + 1 + i := by omega
      simp only [generateCells, List.getD_cons_succ, ih (k + 1) i h', hk]

lemma le_foldl_max (l : List Nat) (a : Nat) : a ≤ l.foldl max a := by
  induction l generalizing a with
  | nil => exact Nat.le_refl a
  | cons b l ih => exact le_trans (le_max_left a b) (ih (max a b))

lemma mem_le_foldl_max (l : List Nat) (a x : Nat) (hx : x ∈ l) : x ≤ l.foldl max a := by
  induction l generalizing a with
  | nil => simp at hx
  | cons b l ih =>
    rcases List.mem_cons.mp hx with h | h
    · subst h
      exact le_trans (le_max_right a x) (le_foldl_max l (max a x))
    · exact ih (max a b) h

lemma foldl_max_mem (l : List Nat) (a : Nat) : l.foldl max a = a ∨ l.foldl max a ∈ l := by
  induction l generalizing a with
  | nil => exact Or.inl rfl
  | cons b l ih =>
    rcases ih (max a b) with h | h
    · rcases max_choice a b with hm | hm
      · exact Or.inl (by rw [List.foldl_cons, h, hm])
      · exact Or.inr (by rw [List.foldl_cons, h, hm]; exact List.mem_cons_self b l)
    · exact Or.inr (List.mem_cons_of_mem b h)

lemma maxWidth_le (g : List Port) (p : Port) (hp : p ∈ g) : p.width ≤ maxWidth g :=
  mem_le_foldl_max _ 0 _ (List.mem_map_of_mem Port.width hp)

lemma maxWidth_attained (g : List Port) (hg : g ≠ []) : ∃ p ∈ g, p.width = maxWidth g := by
  rcases g with _ | ⟨p, g'⟩
  · exact absurd rfl hg
  · rcases foldl_max_mem ((p :: g').map Port.width) 0 with h | h
    · have hle : p.width ≤ maxWidth (p :: g') := maxWidth_le _ p (List.mem_cons_self p g')
      have hm : maxWidth (p :: g') = 0 := h
      exact ⟨p, List.mem_cons_self p g', by omega⟩
    · rcases List.mem_map.mp h with ⟨q, hq, hw⟩
      exact ⟨q, hq, hw⟩

/-! ### Claim theorems C3 and C4 -/

/-- Counterexample to claim C3: a connectivity group holding two
independently pre-assigned cells (ids 7 and 8) passes through the
node-creation loop of generate() with no error of any kind; both ports keep
their distinct pre-assigned cells. -/
theorem C3_counterexample_no_abort :
    (generateCells [[⟨4, some 7⟩, ⟨4, some 8⟩]] 100).1 = [[⟨4, some 7⟩, ⟨4, some 8⟩]] ∧
    (7 : Nat) ≠ 8 := by
  decide

/-- Claim C3 (amended): generate() performs no merge-conflict check and never
aborts: the node-creation loop is total and every port with a pre-assigned
cell keeps exactly that cell (a group with several independently pre-assigned
cells silently retains all of them), while ports without one receive the
group's fresh cell. -/
theorem C3_no_conflict_detection :
    ∀ (gs : List (List Port)) (k i : Nat),
      ((generateCells gs k).1).getD i [] =
        (gs.getD i []).map
          (fun p => if p.value = none then { p with value := some (k + i) } else p) :=
  generateCells_fst_getD

/-- Counterexample to claim C4: in a group with one pre-assigned member
(cell 7) and one unassigned member, generate() gives the unassigned member a
fresh cell (id 100) instead of the pre-existing one — the group members do not
share a single ValueCell afterwards. -/
theorem C4_counterexample_not_shared :
    (generateCells [[⟨4, some 7⟩, ⟨8, none⟩]] 100).1 = [[⟨4, some 7⟩, ⟨8, some 100⟩]] ∧
    some (7 : Nat) ≠ some (100 : Nat) := by
  decide

/-- Claim C4 (amended): generate() creates exactly one fresh cell per
connectivity group, with width equal to the maximum declared width among the
group's members; every member without a pre-existing cell receives that one
fresh cell, while members that already own a cell keep their own — so when
some member was pre-assigned, the pre-existing cell is not propagated to the
rest of the group. -/
theorem C4_one_cell_per_group :
    (∀ (gs : List (List Port)) (k : Nat), ((generateCells gs k).2).length = gs.length) ∧
    (∀ (gs : List (List Port)) (k i : Nat), i < gs.length →
      ((generateCells gs k).2).getD i (0, 0) = (k + i, maxWidth (gs.getD i []))) ∧
    (∀ (g : List Port) (p : Port), p ∈ g → p.width ≤ maxWidth g) ∧
    (∀ g : List Port, g ≠ [] → ∃ p ∈ g, p.width = maxWidth g) ∧
    (∀ (gs : List (List Port)) (k i : Nat) (p : Port), p ∈ gs.getD i [] → p.value = none →
      { p with value := some (k + i) } ∈ ((generateCells gs k).1).getD i []) ∧
    (∀ (gs : List (List Port)) (k i : Nat) (p : Port), p ∈ gs.getD i [] → p.value ≠ none →
      p ∈ ((generateCells gs k).1).getD i []) := by
  refine ⟨generateCells_snd_length, generateCells_snd_getD, maxWidth_le, maxWidth_attained,
    ?_, ?_⟩
  · intro gs k i p hp hv
    rw [generateCells_fst_getD]
    exact List.mem_map.mpr ⟨p, hp, by simp [hv]⟩
  · intro gs k i p hp hv
    rw [generateCells_fst_getD]
    exact List.mem_map.mpr ⟨p, hp, by simp [hv]⟩

/-- Witness for C4 at a concrete group list. -/
theorem C4_one_cell_per_group_witness :
    ((generateCells [[⟨4, some 7⟩, ⟨8, none⟩]] 100).2).getD 0 (0, 0) =
      (100, maxWidth [⟨4, some 7⟩, ⟨8, none⟩]) ∧
    (⟨8, some 100⟩ : Port) ∈ ((generateCells [[⟨4, some 7⟩, ⟨8, none⟩]] 100).1).getD 0 [] :=
  ⟨C4_one_cell_per_group.2.1 [[⟨4, some 7⟩, ⟨8, none⟩]] 100 0 (by decide),
   C4_one_cell_per_group.2.2.2.2.1 [[⟨4, some 7⟩, ⟨8, none⟩]] 100 0 ⟨8, none⟩
     (by decide) rfl⟩

/-! ### Scheduler lemmas (add_event, lines 63-80) -/

lemma mem_enqueueFuncs_of_mem (fs : List Nat) (q : List Nat) (f : Nat) (h : f ∈ q) :
    f ∈ enqueueFuncs fs q := by
  induction fs generalizing q with
  | nil => exact h
  | cons g fs ih =>
    simp only [enqueueFuncs, List.foldl_cons]
    by_cases hg : g ∈ q
    · simpa [hg] using ih q h
    · simpa [hg] using ih (g :: q) (List.mem_cons_of_mem g h)

lemma mem_enqueueFuncs_self (fs : List Nat) (q : List Nat) (f : Nat) (h : f ∈ fs) :
    f ∈ enqueueFuncs fs q := by
  induction fs generalizing q with
  | nil => simp at h
  | cons g fs ih =>
    simp only [enqueueFuncs, List.foldl_cons]
    rcases List.mem_cons.mp h with hf | hf
    · subst hf
      by_cases hg : f ∈ q
      · simpa [hg] using mem_enqueueFuncs_of_mem fs q f hg
      · simpa [hg] using mem_enqueueFuncs_of_mem fs (f :: q) f (List.mem_cons_self f q)
    · by_cases hg : g ∈ q
      · simpa [hg] using ih q hf
      · simpa [hg] using ih (g :: q) hf

lemma enqueueFuncs_nodup (fs : List Nat) (q : List Nat) (h : q.Nodup) :
    (enqueueFuncs fs q).Nodup := by
  induction fs generalizing q with
  | nil => exact h
  | cons g fs ih =>
    simp only [enqueueFuncs, List.foldl_cons]
    by_cases hg : g ∈ q
    · simpa [hg] using ih q h
    · simpa [hg] using ih (g :: q) (List.nodup_cons.mpr ⟨hg, h⟩)

lemma enqueueFuncs_count_of_mem (fs : List Nat) (q : List Nat) (f : Nat) (h : f ∈ q) :
    (enqueueFuncs fs q).count f = q.count f := by
  induction fs generalizing q with
  | nil => rfl
  | cons g fs ih =>
    simp only [enqueueFuncs, List.foldl_cons]
    by_cases hg : g ∈ q
    · simpa [hg] using ih q h
    · have hne : f ≠ g := fun he => hg (he ▸ h)
      have : (enqueueFuncs fs (g :: q)).count f = (g :: q).count f :=
        ih (g :: q) (List.mem_cons_of_mem g h)
      simpa [hg, enqueueFuncs, List.count_cons, hne] using this

lemma enqueueFuncs_prepend (fs : List Nat) (q : List Nat) :
    ∃ new, enqueueFuncs fs q = new ++ q := by
  induction fs generalizing q with
  | nil => exact ⟨[], rfl⟩
  | cons g fs ih =>
    simp only [enqueueFuncs, List.foldl_cons]
    by_cases hg : g ∈ q
    · simpa [hg] using ih q
    · rcases ih (g :: q) with ⟨n2, h2⟩
      refine ⟨n2 ++ [g], ?_⟩
      simpa [hg, List.append_assoc] using h2

lemma setValue_queue_prepend (cfg : SimConfig) (id v : Nat) (st : SimState) :
    ∃ new, (setValue cfg id v st).event_queue = new ++ st.event_queue := by
  by_cases h : (getNode st id).is_reg
  · exact ⟨[], by simp [setValue, h]⟩
  · rcases enqueueFuncs_prepend (cfg.vnode_callbacks id) st.event_queue with ⟨new, hn⟩
    exact ⟨new, by simp [setValue, h, add_event, hn]⟩

lemma execWrites_queue_prepend (cfg : SimConfig) (ws : List (Nat × Expr)) (st : SimState) :
    ∃ new, (execWrites cfg ws st).event_queue = new ++ st.event_queue := by
  induction ws generalizing st with
  | nil => exact ⟨[], rfl⟩
  | cons w ws ih =>
    rcases setValue_queue_prepend cfg w.1 (evalExpr st w.2) st with ⟨n1, h1⟩
    rcases ih (setValue cfg w.1 (evalExpr st w.2) st) with ⟨n2, h2⟩
    refine ⟨n2 ++ n1, ?_⟩
    simp only [execWrites, List.foldl_cons] at *
    rw [h2, h1, List.append_assoc]

lemma runFunc_queue_prepend (cfg : SimConfig) (f : Nat) (st : SimState) :
    ∃ new, (runFunc cfg f st).event_queue = new ++ st.event_queue :=
  execWrites_queue_prepend cfg (cfg.funcs f) st

/-! ### Claim theorems C6, C8, C9 -/

/-- Claim C6: scheduling is idempotent.  (1) Any sequence of add_event calls
preserves the no-duplicates property of the event queue, so each sensitized
reaction is pending at most once; (2) add_event never inserts a reaction that
is already pending (its multiplicity in the queue is unchanged);
(3) every reaction sensitized to the written node does end up pending. -/
theorem C6_idempotent_scheduling :
    (∀ (cfg : SimConfig) (cells : List Nat) (st : SimState),
      st.event_queue.Nodup →
      ((cells.foldl (fun s c => add_event cfg c s) st).event_queue).Nodup) ∧
    (∀ (cfg : SimConfig) (c : Nat) (st : SimState) (f : Nat),
      f ∈ st.event_queue →
      (add_event cfg c st).event_queue.count f = st.event_queue.count f) ∧
    (∀ (cfg : SimConfig) (c : Nat) (st : SimState) (f : Nat),
      f ∈ cfg.vnode_callbacks c → f ∈ (add_event cfg c st).event_queue) := by
  refine ⟨?_, ?_, ?_⟩
  · intro cfg cells
    induction cells with
    | nil => intro st h; exact h
    | cons c cells ih =>
      intro st h
      exact ih (add_event cfg c st) (enqueueFuncs_nodup _ _ h)
  · intro cfg c st f h
    exact enqueueFuncs_count_of_mem _ _ f h
  · intro cfg c st f h
    exact mem_enqueueFuncs_self _ _ f h

/-- Witness for C6 on a concrete queue and callback map. -/
theorem C6_idempotent_scheduling_witness :
    ((([3, 3] : List Nat).foldl (fun s c => add_event cfgCyc c s) stCyc).event_queue).Nodup ∧
    (add_event cfgCyc 0 stCyc).event_queue.count 0 = stCyc.event_queue.count 0 ∧
    0 ∈ (add_event cfgCyc 0 stCyc).event_queue :=
  ⟨C6_idempotent_scheduling.1 cfgCyc [3, 3] stCyc (by decide),
   C6_idempotent_scheduling.2.1 cfgCyc 0 stCyc 0 (by decide),
   C6_idempotent_scheduling.2.2 cfgCyc 0 stCyc 0 (by decide)⟩

lemma clockAll_queue (regs : List Nat) (st st' : SimState)
    (h : clockAll regs st = .ok st') : st'.event_queue = st.event_queue := by
  induction regs generalizing st with
  | nil =>
    simp only [clockAll] at h
    cases h
    rfl
  | cons r rs ih =>
    simp only [clockAll] at h
    cases hc : clockNode (getNode st r) with
    | none => rw [hc] at h; exact absurd h (by simp)
    | some n' =>
      rw [hc] at h
      exact ih { st with nodes := st.nodes.set r n' } h

lemma splitLast_ne_none (a : Nat) (rest : List Nat) : splitLast (a :: rest) ≠ none := by
  simp only [splitLast]
  cases splitLast rest with
  | none => simp
  | some qf => simp

lemma splitLast_eq_none (l : List Nat) (h : splitLast l = none) : l = [] := by
  cases l with
  | nil => rfl
  | cons a rest => exact absurd h (splitLast_ne_none a rest)

lemma drainFuel_empties (cfg : SimConfig) (n : Nat) (st : SimState)
    (p : SimState × List Nat) (h : drainFuel cfg n st = .ok p) :
    p.1.event_queue = [] := by
  induction n generalizing st p with
  | zero =>
    simp only [drainFuel] at h
    split at h
    · cases h
      simp_all
    · exact absurd h (by simp)
  | succ n ih =>
    simp only [drainFuel] at h
    split at h
    · cases h
      exact splitLast_eq_none _ (by assumption)
    · split at h
      · rename_i x st' t hrec
        cases h
        exact ih _ (st', t) hrec
      · exact absurd h (by simp)

/-- Claim C8: the commit phase never schedules reactions.  Calling clock() on
all registers leaves the event queue exactly as it was (first conjunct), and
at the moment cycle() reaches the commit phase the drain has already emptied
the queue (second conjunct), so the queue stays empty across commit unless a
posedge function explicitly wrote a wire; only an explicit wire-cell write
(through add_event) ever inserts into the queue. -/
theorem C8_commit_never_schedules :
    (∀ (regs : List Nat) (st st' : SimState), clockAll regs st = .ok st' →
      st'.event_queue = st.event_queue) ∧
    (∀ (cfg : SimConfig) (n : Nat) (st : SimState) (p : SimState × List Nat),
      drainFuel cfg n st = .ok p → p.1.event_queue = []) :=
  ⟨clockAll_queue, drainFuel_empties⟩

/-- Witness for C8: committing the two swap registers after their next values
are buffered leaves the (empty) queue untouched, and a completed drain ends
with an empty queue. -/
theorem C8_commit_never_schedules_witness :
    (⟨[⟨8, 7, some 7, true⟩, ⟨8, 3, some 3, true⟩], [], 0⟩ : SimState).event_queue =
      (⟨[⟨8, 3, some 7, true⟩, ⟨8, 7, some 3, true⟩], [], 0⟩ : SimState).event_queue ∧
    ((stSwap 3 7, []) : SimState × List Nat).1.event_queue = [] :=
  ⟨C8_commit_never_schedules.1 [0, 1]
      ⟨[⟨8, 3, some 7, true⟩, ⟨8, 7, some 3, true⟩], [], 0⟩
      ⟨[⟨8, 7, some 7, true⟩, ⟨8, 3, some 3, true⟩], [], 0⟩ rfl,
   C8_commit_never_schedules.2 cfgSwap 1 (stSwap 3 7) (stSwap 3 7, []) rfl⟩

/-- Claim C9: writing a WIRE-mode node always schedules every sensitized
reaction, regardless of the written value: the resulting queue is
enqueueFuncs of the node's callbacks (independent of v), every callback ends
up pending, and writing the node's own current value produces exactly the
same queue as writing anything else. -/
theorem C9_wire_write_always_schedules :
    ∀ (cfg : SimConfig) (st : SimState) (id v : Nat),
      (getNode st id).is_reg = false →
      ((setValue cfg id v st).event_queue
          = enqueueFuncs (cfg.vnode_callbacks id) st.event_queue) ∧
      (∀ f ∈ cfg.vnode_callbacks id, f ∈ (setValue cfg id v st).event_queue) ∧
      ((setValue cfg id v st).event_queue
          = (setValue cfg id (getNode st id).value st).event_queue) := by
  intro cfg st id v h
  have hq : ∀ w : Nat, (setValue cfg id w st).event_queue
      = enqueueFuncs (cfg.vnode_callbacks id) st.event_queue := by
    intro w
    simp [setValue, h, add_event]
  refine ⟨hq v, ?_, by rw [hq v, hq (getNode st id).value]⟩
  intro f hf
  rw [hq v]
  exact mem_enqueueFuncs_self _ _ f hf

/-- Witness for C9: writing wire node 0 of the cyclic circuit with its own
current value still schedules callback 0. -/
theorem C9_wire_write_always_schedules_witness :
    (setValue cfgCyc 0 5 { stCyc with event_queue := [] }).event_queue
        = enqueueFuncs (cfgCyc.vnode_callbacks 0) [] ∧
    0 ∈ (setValue cfgCyc 0 5 { stCyc with event_queue := [] }).event_queue :=
  ⟨(C9_wire_write_always_schedules cfgCyc { stCyc with event_queue := [] } 0 5 (by decide)).1,
   (C9_wire_write_always_schedules cfgCyc { stCyc with event_queue := [] } 0 5
     (by decide)).2.1 0 (by decide)⟩

/-! ### FIFO order of the drain loop (claim C7) -/

lemma splitLast_spec (l : List Nat) :
    l = [] ∨ ∃ q f, splitLast l = some (q, f) ∧ l = q ++ [f] := by
  induction l with
  | nil => exact Or.inl rfl
  | cons a rest ih =>
    rcases ih with h | ⟨q, f, hs, he⟩
    · subst h
      exact Or.inr ⟨[], a, rfl, rfl⟩
    · refine Or.inr ⟨a :: q, f, ?_, by simp [he]⟩
      show (match splitLast rest with
        | none => some ([], a)
        | some (q, f) => some (a :: q, f)) = some (a :: q, f)
      rw [hs]

lemma splitLast_eq_append (l q : List Nat) (f : Nat) (h : splitLast l = some (q, f)) :
    l = q ++ [f] := by
  rcases splitLast_spec l with hl | ⟨q', f', hs, he⟩
  · rw [hl] at h
    exact absurd h (by simp [splitLast])
  · rw [hs] at h
    cases h
    exact he

lemma drainFuel_trace (cfg : SimConfig) (n : Nat) :
    ∀ (st : SimState) (p : SimState × List Nat), drainFuel cfg n st = .ok p →
      ∃ rest, p.2 = st.event_queue.reverse ++ rest := by
  induction n with
  | zero =>
    intro st p h
    simp only [drainFuel] at h
    split at h
    · cases h
      rename_i hq
      exact ⟨[], by simp [hq]⟩
    · exact absurd h (by simp)
  | succ n ih =>
    intro st p h
    simp only [drainFuel] at h
    split at h
    · cases h
      rename_i hs
      rw [splitLast_eq_none _ hs]
      exact ⟨[], by simp⟩
    · rename_i xo q f hs
      split at h
      · rename_i xi st' t hrec
        cases h
        rcases ih _ (st', t) hrec with ⟨r0, hr0⟩
        rcases runFunc_queue_prepend cfg f { st with event_queue := q } with ⟨new, hnew⟩
        refine ⟨new.reverse ++ r0, ?_⟩
        have hq : st.event_queue = q ++ [f] := splitLast_eq_append _ _ _ hs
        simp only at hr0
        rw [hq]
        simp only [List.reverse_append, List.reverse_cons, List.reverse_nil,
          List.nil_append, List.cons_append, List.nil_append]
        rw [hr0, hnew]
        simp [List.reverse_append, List.append_assoc]
      · exact absurd h (by simp)

/-- Claim C7: the event queue is FIFO.  If r1 was enqueued strictly before r2
(so r1 sits closer to the popped right end of the deque: the queue reads
a ++ r2 :: b ++ r1 :: c with newest on the left), and the drain completes,
then the execution trace runs r1 strictly before the first (and only initial)
execution of r2.  No no-reschedule assumption is even needed: add_event only
prepends, so pending reactions keep their relative order. -/
theorem C7_fifo_order :
    ∀ (cfg : SimConfig) (n : Nat) (st st' : SimState) (t a b c : List Nat) (r1 r2 : Nat),
      st.event_queue = a ++ r2 :: (b ++ r1 :: c) →
      st.event_queue.Nodup →
      drainFuel cfg n st = .ok (st', t) →
      ∃ t1 t2, t = t1 ++ r1 :: t2 ∧ r1 ∉ t1 ∧ r2 ∉ t1 ∧ r2 ∈ t2 := by
  intro cfg n st st' t a b c r1 r2 hq hnd h
  rcases drainFuel_trace cfg n st (st', t) h with ⟨rest, htr⟩
  rw [hq] at hnd
  have hsub1 : List.Sublist (r1 :: c) (a ++ r2 :: (b ++ r1 :: c)) :=
    ((List.sublist_append_right b (r1 :: c)).trans
      (List.Sublist.cons r2 (List.Sublist.refl (b ++ r1 :: c)))).trans
      (List.sublist_append_right a (r2 :: (b ++ r1 :: c)))
  have hsub2 : List.Sublist (r2 :: c) (a ++ r2 :: (b ++ r1 :: c)) := by
    have hc : List.Sublist c (b ++ r1 :: c) :=
      (List.Sublist.cons r1 (List.Sublist.refl c)).trans
        (List.sublist_append_right b (r1 :: c))
    exact (List.Sublist.cons₂ r2 hc).trans (List.sublist_append_right a _)
  have hr1c : r1 ∉ c := (List.nodup_cons.mp (hnd.sublist hsub1)).1
  have hr2c : r2 ∉ c := (List.nodup_cons.mp (hnd.sublist hsub2)).1
  have ht : t = c.reverse ++ r1 :: (b.reverse ++ r2 :: (a.reverse ++ rest)) := by
    simp only at htr
    rw [htr, hq]
    simp [List.reverse_append, List.reverse_cons, List.append_assoc]
  exact ⟨c.reverse, b.reverse ++ r2 :: (a.reverse ++ rest), ht,
    by simpa using hr1c, by simpa using hr2c, by simp⟩

/-- Witness for C7: a queue holding [r2, r1] = [4, 9] with no callbacks; the
drain trace executes 9 then 4. -/
theorem C7_fifo_order_witness :
    ∃ t1 t2, ([9, 4] : List Nat) = t1 ++ 9 :: t2 ∧ 9 ∉ t1 ∧ 4 ∉ t1 ∧ 4 ∈ t2 :=
  C7_fifo_order cfgSwap 2 ⟨[], [4, 9], 0⟩ ⟨[], [], 0⟩ [9, 4] [] [] [] 9 4
    rfl (by decide) (by rfl)

/-! ### Commit on a never-written register (claim C10) -/

lemma getD_set_ne (l : List Node) (r x : Nat) (n' : Node) (h : x ≠ r) :
    (l.set r n').getD x defaultNode = l.getD x defaultNode := by
  induction l generalizing r x with
  | nil => simp
  | cons a l ih =>
    cases r with
    | zero =>
      cases x with
      | zero => exact absurd rfl h
      | succ x => simp
    | succ r =>
      cases x with
      | zero => simp
      | succ x =>
        have hx : x ≠ r := fun he => h (by rw [he])
        simpa using ih r x hx

lemma getD_set_self (l : List Node) (r : Nat) (n' : Node) (h : r < l.length) :
    (l.set r n').getD r defaultNode = n' := by
  induction l generalizing r with
  | nil => simp at h
  | cons a l ih =>
    cases r with
    | zero => rfl
    | succ r => simpa using ih r (by simpa using h)

lemma set_oob (l : List Node) (r : Nat) (n' : Node) (h : l.length ≤ r) : l.set r n' = l := by
  induction l generalizing r with
  | nil => rfl
  | cons a l ih =>
    cases r with
    | zero => simp at h
    | succ r => simpa using ih r (by simpa using h)

lemma getNode_set_next (st : SimState) (r : Nat) (n' : Node)
    (hn : n'.next = (getNode st r).next) (x : Nat) :
    (getNode { st with nodes := st.nodes.set r n' } x).next = (getNode st x).next := by
  by_cases hx : x = r
  · subst hx
    by_cases hr : x < st.nodes.length
    · show ((st.nodes.set x n').getD x defaultNode).next = _
      rw [getD_set_self _ _ _ hr, hn]
    · show ((st.nodes.set x n').getD x defaultNode).next = _
      rw [set_oob _ _ _ (Nat.le_of_not_lt hr)]
      rfl
  · show ((st.nodes.set r n').getD x defaultNode).next = _
    rw [getD_set_ne _ _ _ _ hx]
    rfl

lemma clockAll_ok (regs : List Nat) (st : SimState)
    (h : ∀ r ∈ regs, (getNode st r).next ≠ none) :
    ∃ st', clockAll regs st = .ok st' := by
  induction regs generalizing st with
  | nil => exact ⟨st, rfl⟩
  | cons r rs ih =>
    cases hn : (getNode st r).next with
    | none => exact absurd hn (h r (List.mem_cons_self r rs))
    | some v =>
      have hc : clockNode (getNode st r) = some { getNode st r with value := v } := by
        simp [clockNode, hn]
      rcases ih { st with nodes := st.nodes.set r { getNode st r with value := v } }
          (fun x hx => by
            rw [getNode_set_next st r { getNode st r with value := v } rfl x]
            exact h x (List.mem_cons_of_mem r hx)) with ⟨st', hst⟩
      refine ⟨st', ?_⟩
      simp only [clockAll, hc]
      exact hst

lemma clockAll_err (regs : List Nat) (st : SimState)
    (h : ∃ r ∈ regs, (getNode st r).next = none) :
    ∃ r', clockAll regs st = .error (.attributeError r') := by
  induction regs generalizing st with
  | nil =>
    rcases h with ⟨r, hr, _⟩
    simp at hr
  | cons r rs ih =>
    cases hn : (getNode st r).next with
    | none =>
      refine ⟨r, ?_⟩
      have hc : clockNode (getNode st r) = none := by simp [clockNode, hn]
      simp only [clockAll, hc]
    | some v =>
      have hc : clockNode (getNode st r) = some { getNode st r with value := v } := by
        simp [clockNode, hn]
      rcases h with ⟨r0, hr0, h0⟩
      rcases List.mem_cons.mp hr0 with he | he
      · subst he
        rw [h0] at hn
        cases hn
      · rcases ih { st with nodes := st.nodes.set r { getNode st r with value := v } }
            ⟨r0, he, by
              rw [getNode_set_next st r { getNode st r with value := v } rfl r0]
              exact h0⟩ with ⟨r', hr'⟩
        refine ⟨r', ?_⟩
        simp only [clockAll, hc]
        exact hr'

/-- Claim C10: committing a never-written register fails.  clock() on a node
whose next was never assigned yields the AttributeError outcome instead of
falling back to the reset value (first conjunct); the commit loop errors
whenever some registered register was never written (next absent, third
conjunct); it succeeds when every registered register has been written at
least once (next present, second conjunct) — under that precondition the
error branch is unreachable; and a register write is exactly what makes next
present (fourth conjunct). -/
theorem C10_commit_requires_written :
    (∀ nd : Node, nd.next = none → clockNode nd = none) ∧
    (∀ (regs : List Nat) (st : SimState),
      (∀ r ∈ regs, (getNode st r).next ≠ none) → ∃ st', clockAll regs st = .ok st') ∧
    (∀ (regs : List Nat) (st : SimState),
      (∃ r ∈ regs, (getNode st r).next = none) →
      ∃ r', clockAll regs st = .error (.attributeError r')) ∧
    (∀ (cfg : SimConfig) (id v : Nat) (st : SimState),
      id < st.nodes.length → (getNode st id).is_reg = true →
      (getNode (setValue cfg id v st) id).next = some v) := by
  refine ⟨?_, clockAll_ok, clockAll_err, ?_⟩
  · intro nd h
    simp [clockNode, h]
  · intro cfg id v st hlen h
    rw [setValue_reg cfg id v st h]
    show ((st.nodes.set id { getNode st id with next := some v }).getD id defaultNode).next
        = some v
    rw [getD_set_self _ _ _ hlen]

/-- Witness for C10: the never-written register of stSwap fails to clock,
the written pair clocks fine, the unwritten pair errors, and writing makes
next present. -/
theorem C10_commit_requires_written_witness :
    clockNode (mkReg 3) = none ∧
    (∃ st', clockAll [0, 1] ⟨[⟨8, 3, some 7, true⟩, ⟨8, 7, some 3, true⟩], [], 0⟩ = .ok st') ∧
    (∃ r', clockAll [0, 1] (stSwap 3 7) = .error (.attributeError r')) ∧
    (getNode (setValue cfgSwap 0 9 (stSwap 3 7)) 0).next = some 9 :=
  ⟨C10_commit_requires_written.1 (mkReg 3) rfl,
   C10_commit_requires_written.2.1 [0, 1]
     ⟨[⟨8, 3, some 7, true⟩, ⟨8, 7, some 3, true⟩], [], 0⟩ (by decide),
   C10_commit_requires_written.2.2.1 [0, 1] (stSwap 3 7) ⟨0, by decide, by decide⟩,
   C10_commit_requires_written.2.2.2 cfgSwap 0 9 (stSwap 3 7) (by decide) (by decide)⟩

/-! ### Connectivity resolver (find_node_groupings / add_to_node_groups,
lines 123-154) -/

/-- An endpooint (port or wire) as the connectivity resolver sees it: its own
identity and the identities of its direct connections (port.connections).
Identities are numeric, standing for python object identity. -/
structure Endpoint where
  pid : Nat
  connections : Finset Nat
deriving DecidableEq

/-- The candidate group built at line 141-142: set([port]) updated with
port.connections. -/
def candidate (e : Endpoint) : Finset Nat := insert e.pid e.connections

/-- Embeds the comprehension at line 153: walk the existing groups in order;
a group disjoint from the (evolving) candidate is kept, otherwise it is
absorbed into the candidate and dropped.  Returns (final candidate, kept
groups in order). -/
def mergePass : Finset Nat → List (Finset Nat) → Finset Nat × List (Finset Nat)
  | c, [] => (c, [])
  | c, g :: gs =>
    if c ∩ g = ∅ then
      ((mergePass c gs).1, g :: (mergePass c gs).2)
    else
      mergePass (c ∪ g) gs

/-- Embeds LogicSim.add_to_node_groups (lines 140-154): the kept groups,
with the merged candidate appended at the end. -/
def add_to_node_groups (e : Endpoint) (gs : List (Finset Nat)) : List (Finset Nat) :=
  (mergePass (candidate e) gs).2 ++ [(mergePass (candidate e) gs).1]

/-- Embeds LogicSim.find_node_groupings (lines 123-137) after flattening the
module hierarchy: process every endpoint in order, starting from the empty
node_groups list. -/
def find_node_groupings (ps : List Endpoint) : List (Finset Nat) :=
  ps.foldl (fun gs e => add_to_node_groups e gs) []

def unionList : List (Finset Nat) → Finset Nat
  | [] => ∅
  | g :: gs => g ∪ unionList gs

/-- Two ids are directly joined when some processed endpoint puts both in its
candidate set (this generates the undirected direct-connection graph). -/
def touches (ps : List Endpoint) (x y : Nat) : Prop :=
  ∃ e ∈ ps, x ∈ candidate e ∧ y ∈ candidate e

/-- Connectivity: the reflexive-transitive closure of touches, i.e. being in
the same connected component of the undirected connection graph. -/
def Conn (ps : List Endpoint) : Nat → Nat → Prop := Relation.ReflTransGen (touches ps)

/-- All ids mentioned by the processed endpoints. -/
def mentionedSet (ps : List Endpoint) : Finset Nat := unionList (ps.map candidate)

lemma unionList_mem (gs : List (Finset Nat)) (x : Nat) :
    x ∈ unionList gs ↔ ∃ g ∈ gs, x ∈ g := by
  induction gs with
  | nil => simp [unionList]
  | cons g gs ih => simp [unionList, ih]

lemma mentionedSet_mem (ps : List Endpoint) (x : Nat) :
    x ∈ mentionedSet ps ↔ ∃ e ∈ ps, x ∈ candidate e := by
  simp [mentionedSet, unionList_mem]

lemma mentionedSet_append (ps : List Endpoint) (e : Endpoint) :
    mentionedSet (ps ++ [e]) = mentionedSet ps ∪ candidate e := by
  ext x
  simp only [mentionedSet_mem, Finset.mem_union, List.mem_append, List.mem_singleton]
  constructor
  · rintro ⟨e', he' | he', hx⟩
    · exact Or.inl ⟨e', he', hx⟩
    · exact Or.inr (he' ▸ hx)
  · rintro (⟨e', he', hx⟩ | hx)
    · exact ⟨e', Or.inl he', hx⟩
    · exact ⟨e, Or.inr rfl, hx⟩

lemma mergePass_eq (c : Finset Nat) (gs : List (Finset Nat))
    (h : gs.Pairwise (fun a b => a ∩ b = ∅)) :
    mergePass c gs =
      (c ∪ unionList (gs.filter (fun g => decide ¬ (c ∩ g = ∅))),
       gs.filter (fun g => decide (c ∩ g = ∅))) := by
  induction gs generalizing c with
  | nil => simp [mergePass, unionList]
  | cons g gs ih =>
    rw [List.pairwise_cons] at h
    obtain ⟨hg, hgs⟩ := h
    by_cases hc : c ∩ g = ∅
    · simp only [mergePass, if_pos hc, ih c hgs]
      simp [List.filter_cons, hc]
    · simp only [mergePass, if_neg hc]
      rw [ih (c ∪ g) hgs]
      have hsame : ∀ g' ∈ gs, (c ∪ g) ∩ g' = c ∩ g' := by
        intro g' hg'
        rw [Finset.union_inter_distrib_right, hg g' hg', Finset.union_empty]
      have hfilter1 : gs.filter (fun g' => decide ((c ∪ g) ∩ g' = ∅))
          = gs.filter (fun g' => decide (c ∩ g' = ∅)) :=
        List.filter_congr (fun g' hg' => decide_eq_decide.mpr (by rw [hsame g' hg']))
      have hfilter2 : gs.filter (fun g' => decide ¬ ((c ∪ g) ∩ g' = ∅))
          = gs.filter (fun g' => decide ¬ (c ∩ g' = ∅)) :=
        List.filter_congr (fun g' hg' => decide_eq_decide.mpr (by rw [hsame g' hg']))
      rw [hfilter1, hfilter2]
      simp [List.filter_cons, hc, unionList, Finset.union_assoc]

lemma touches_symm (ps : List Endpoint) (x y : Nat) (h : touches ps x y) :
    touches ps y x := by
  rcases h with ⟨e, he, hx, hy⟩
  exact ⟨e, he, hy, hx⟩

lemma Conn_symm (ps : List Endpoint) (x y : Nat) (h : Conn ps x y) : Conn ps y x := by
  induction h with
  | refl => exact Relation.ReflTransGen.refl
  | tail hxb hstep ih => exact Relation.ReflTransGen.head (touches_symm _ _ _ hstep) ih

lemma touches_mono_append (ps : List Endpoint) (e : Endpoint) (x y : Nat)
    (h : touches ps x y) : touches (ps ++ [e]) x y := by
  rcases h with ⟨e', he, hx, hy⟩
  exact ⟨e', List.mem_append.mpr (Or.inl he), hx, hy⟩

lemma Conn_mono_append (ps : List Endpoint) (e : Endpoint) (x y : Nat)
    (h : Conn ps x y) : Conn (ps ++ [e]) x y :=
  Relation.ReflTransGen.mono (fun a b hab => touches_mono_append ps e a b hab) h

lemma Conn_append_iff (ps : List Endpoint) (e : Endpoint) (x y : Nat) :
    Conn (ps ++ [e]) x y ↔
      Conn ps x y ∨
      ∃ u v, Conn ps x u ∧ u ∈ candidate e ∧ v ∈ candidate e ∧ Conn ps v y := by
  constructor
  · intro h
    induction h with
    | refl => exact Or.inl Relation.ReflTransGen.refl
    | @tail b d hxb hbd ih =>
      rcases hbd with ⟨e', he', hb, hd⟩
      rcases List.mem_append.mp he' with he' | he'
      · rcases ih with hconn | ⟨u, v, h1, h2, h3, h4⟩
        · exact Or.inl (hconn.tail ⟨e', he', hb, hd⟩)
        · exact Or.inr ⟨u, v, h1, h2, h3, h4.tail ⟨e', he', hb, hd⟩⟩
      · have he2 : e' = e := by simpa using he'
        subst he2
        rcases ih with hconn | ⟨u, v, h1, h2, h3, h4⟩
        · exact Or.inr ⟨b, d, hconn, hb, hd, Relation.ReflTransGen.refl⟩
        · exact Or.inr ⟨u, d, h1, h2, hd, Relation.ReflTransGen.refl⟩
  · rintro (h | ⟨u, v, h1, h2, h3, h4⟩)
    · exact Conn_mono_append ps e x y h
    · have huv : touches (ps ++ [e]) u v :=
        ⟨e, List.mem_append.mpr (Or.inr (List.mem_singleton.mpr rfl)), h2, h3⟩
      exact ((Conn_mono_append ps e x u h1).tail huv).trans (Conn_mono_append ps e v y h4)

lemma Conn_eq_of_not_mentioned (ps : List Endpoint) (x y : Nat)
    (hx : x ∉ mentionedSet ps) (h : Conn ps x y) : y = x := by
  rcases Relation.ReflTransGen.cases_head h with he | ⟨d, hstep, _⟩
  · exact he.symm
  · rcases hstep with ⟨e, he, hx', _⟩
    exact absurd ((mentionedSet_mem ps x).mpr ⟨e, he, hx'⟩) hx

lemma empty_inter_absurd {c g : Finset Nat} {x : Nat}
    (h : c ∩ g = ∅) (hc : x ∈ c) (hg : x ∈ g) : False := by
  have hx : x ∈ c ∩ g := Finset.mem_inter.mpr ⟨hc, hg⟩
  rw [h] at hx
  exact Finset.not_mem_empty x hx

/-- The resolver invariant: the group list is pairwise disjoint, covers
exactly the mentioned ids, each group is the connected component of each of
its members, and groups are nonempty. -/
def GoodPartition (ps : List Endpoint) (gs : List (Finset Nat)) : Prop :=
  gs.Pairwise (fun a b => a ∩ b = ∅) ∧
  (∀ x, x ∈ mentionedSet ps ↔ ∃ g ∈ gs, x ∈ g) ∧
  (∀ g ∈ gs, ∀ x ∈ g, ∀ y, (y ∈ g ↔ Conn ps x y)) ∧
  (∀ g ∈ gs, g.Nonempty)

lemma partition_step (ps : List Endpoint) (e : Endpoint)
    (gs kept dropped : List (Finset Nat))
    (hk1 : ∀ g ∈ kept, g ∈ gs)
    (hk2 : ∀ g ∈ kept, candidate e ∩ g = ∅)
    (hk3 : kept.Pairwise (fun a b => a ∩ b = ∅))
    (hd1 : ∀ g ∈ dropped, g ∈ gs)
    (hd2 : ∀ g ∈ dropped, ¬ (candidate e ∩ g = ∅))
    (hsplit : ∀ g ∈ gs, ∀ x ∈ g, g ∈ kept ∨ g ∈ dropped)
    (Hpw : gs.Pairwise (fun a b => a ∩ b = ∅))
    (Hcov : ∀ x, x ∈ mentionedSet ps ↔ ∃ g ∈ gs, x ∈ g)
    (Hchar : ∀ g ∈ gs, ∀ x ∈ g, ∀ y, (y ∈ g ↔ Conn ps x y))
    (Hne : ∀ g ∈ gs, g.Nonempty) :
    GoodPartition (ps ++ [e]) (kept ++ [candidate e ∪ unionList dropped]) := by
  have hsym : Symmetric (fun a b : Finset Nat => a ∩ b = ∅) := by
    intro a b h
    rw [Finset.inter_comm]
    exact h
  have hglobal : ∀ g ∈ gs, ∀ d ∈ gs, g ≠ d → g ∩ d = ∅ :=
    fun g hg d hd hne => Hpw.forall hsym hg hd hne
  have hkd : ∀ g ∈ kept, ∀ d ∈ dropped, g ∩ d = ∅ := by
    intro g hg d hd
    have hne : g ≠ d := fun he => hd2 d hd (he ▸ hk2 g hg)
    exact hglobal g (hk1 g hg) d (hd1 d hd) hne
  have hmeme : e ∈ ps ++ [e] := List.mem_append.mpr (Or.inr (List.mem_singleton.mpr rfl))
  have hub : ∀ w, w ∈ candidate e ∪ unionList dropped → ∀ z ∈ candidate e,
      Conn (ps ++ [e]) w z := by
    intro w hw z hz
    rcases Finset.mem_union.mp hw with hw | hw
    · exact Relation.ReflTransGen.single ⟨e, hmeme, hw, hz⟩
    · rcases (unionList_mem dropped w).mp hw with ⟨d, hd, hwd⟩
      rcases Finset.nonempty_iff_ne_empty.mpr (hd2 d hd) with ⟨u, hu⟩
      obtain ⟨huc, hud⟩ := Finset.mem_inter.mp hu
      have hwu : Conn ps w u := ((Hchar d (hd1 d hd) w hwd) u).mp hud
      exact (Conn_mono_append ps e w u hwu).tail ⟨e, hmeme, huc, hz⟩
  have hfromC : ∀ v y, v ∈ candidate e → Conn ps v y →
      y ∈ candidate e ∪ unionList dropped := by
    intro v y hv hconn
    by_cases hvm : v ∈ mentionedSet ps
    · rcases (Hcov v).mp hvm with ⟨h0, hh0, hvh0⟩
      have hh0d : h0 ∈ dropped := by
        rcases hsplit h0 hh0 v hvh0 with hk | hd
        · exact (empty_inter_absurd (hk2 h0 hk) hv hvh0).elim
        · exact hd
      have hy : y ∈ h0 := ((Hchar h0 hh0 v hvh0) y).mpr hconn
      exact Finset.mem_union_right _ ((unionList_mem dropped y).mpr ⟨h0, hh0d, hy⟩)
    · have hyv : y = v := Conn_eq_of_not_mentioned ps v y hvm hconn
      subst hyv
      exact Finset.mem_union_left _ hv
  have hclosed : ∀ x y, x ∈ candidate e ∪ unionList dropped →
      Conn (ps ++ [e]) x y → y ∈ candidate e ∪ unionList dropped := by
    intro x y hx hconn
    rcases (Conn_append_iff ps e x y).mp hconn with hold | ⟨u, v, h1, h2, h3, h4⟩
    · rcases Finset.mem_union.mp hx with hxc | hxd
      · exact hfromC x y hxc hold
      · rcases (unionList_mem dropped x).mp hxd with ⟨d, hd, hxd'⟩
        have hy : y ∈ d := ((Hchar d (hd1 d hd) x hxd') y).mpr hold
        exact Finset.mem_union_right _ ((unionList_mem dropped y).mpr ⟨d, hd, hy⟩)
    · exact hfromC v y h3 h4
  refine ⟨?_, ?_, ?_, ?_⟩
  · rw [List.pairwise_append]
    refine ⟨hk3, by simp, ?_⟩
    intro g hg g' hg'
    rw [List.mem_singleton] at hg'
    subst hg'
    rw [Finset.eq_empty_iff_forall_not_mem]
    intro x hx
    obtain ⟨hxg, hxn⟩ := Finset.mem_inter.mp hx
    rcases Finset.mem_union.mp hxn with hxc | hxd
    · exact empty_inter_absurd (hk2 g hg) hxc hxg
    · rcases (unionList_mem dropped x).mp hxd with ⟨d, hd, hxd'⟩
      exact empty_inter_absurd (hkd g hg d hd) hxg hxd'
  · intro x
    rw [mentionedSet_append]
    constructor
    · intro hx
      rcases Finset.mem_union.mp hx with hx | hx
      · rcases (Hcov x).mp hx with ⟨g, hg, hxg⟩
        rcases hsplit g hg x hxg with hk | hd
        · exact ⟨g, List.mem_append.mpr (Or.inl hk), hxg⟩
        · exact ⟨_, List.mem_append.mpr (Or.inr (List.mem_singleton.mpr rfl)),
            Finset.mem_union_right _ ((unionList_mem dropped x).mpr ⟨g, hd, hxg⟩)⟩
      · exact ⟨_, List.mem_append.mpr (Or.inr (List.mem_singleton.mpr rfl)),
          Finset.mem_union_left _ hx⟩
    · rintro ⟨g, hg, hxg⟩
      rcases List.mem_append.mp hg with hk | hn
      · exact Finset.mem_union_left _ ((Hcov x).mpr ⟨g, hk1 g hk, hxg⟩)
      · rw [List.mem_singleton] at hn
        subst hn
        rcases Finset.mem_union.mp hxg with hxc | hxd
        · exact Finset.mem_union_right _ hxc
        · rcases (unionList_mem dropped x).mp hxd with ⟨d, hd, hxd'⟩
          exact Finset.mem_union_left _ ((Hcov x).mpr ⟨d, hd1 d hd, hxd'⟩)
  · intro g hg x hx y
    rcases List.mem_append.mp hg with hk | hn
    · constructor
      · intro hy
        exact Conn_mono_append ps e x y (((Hchar g (hk1 g hk) x hx) y).mp hy)
      · intro hconn
        rcases (Conn_append_iff ps e x y).mp hconn with hold | ⟨u, v, h1, h2, h3, h4⟩
        · exact ((Hchar g (hk1 g hk) x hx) y).mpr hold
        · have hu : u ∈ g := ((Hchar g (hk1 g hk) x hx) u).mpr h1
          exact (empty_inter_absurd (hk2 g hk) h2 hu).elim
    · rw [List.mem_singleton] at hn
      subst hn
      constructor
      · intro hy
        have hpid : e.pid ∈ candidate e := Finset.mem_insert_self _ _
        exact (hub x hx e.pid hpid).trans (Conn_symm _ _ _ (hub y hy e.pid hpid))
      · intro hconn
        exact hclosed x y hx hconn
  · intro g hg
    rcases List.mem_append.mp hg with hk | hn
    · exact Hne g (hk1 g hk)
    · rw [List.mem_singleton] at hn
      subst hn
      exact ⟨e.pid, Finset.mem_union_left _ (Finset.mem_insert_self _ _)⟩

lemma good_step (ps : List Endpoint) (gs : List (Finset Nat)) (e : Endpoint)
    (H : GoodPartition ps gs) : GoodPartition (ps ++ [e]) (add_to_node_groups e gs) := by
  obtain ⟨Hpw, Hcov, Hchar, Hne⟩ := H
  have hadd : add_to_node_groups e gs =
      (gs.filter (fun g => decide (candidate e ∩ g = ∅))) ++
        [candidate e ∪ unionList (gs.filter (fun g => decide ¬ (candidate e ∩ g = ∅)))] := by
    rw [add_to_node_groups, mergePass_eq (candidate e) gs Hpw]
  rw [hadd]
  refine partition_step ps e gs _ _ ?_ ?_ ?_ ?_ ?_ ?_ Hpw Hcov Hchar Hne
  · exact fun g hg => List.mem_of_mem_filter hg
  · intro g hg
    have h2 := List.of_mem_filter hg
    simp only [decide_eq_true_eq] at h2
    exact h2
  · exact List.Pairwise.sublist (List.filter_sublist _) Hpw
  · exact fun g hg => List.mem_of_mem_filter hg
  · intro g hg
    have h2 := List.of_mem_filter hg
    simp only [decide_eq_true_eq] at h2
    exact h2
  · intro g hg x hx
    by_cases hc : candidate e ∩ g = ∅
    · exact Or.inl (List.mem_filter.mpr ⟨hg, decide_eq_true hc⟩)
    · exact Or.inr (List.mem_filter.mpr ⟨hg, decide_eq_true hc⟩)

lemma find_append (ps : List Endpoint) (e : Endpoint) :
    find_node_groupings (ps ++ [e]) = add_to_node_groups e (find_node_groupings ps) := by
  simp [find_node_groupings, List.foldl_append]

lemma good_find (ps : List Endpoint) : GoodPartition ps (find_node_groupings ps) := by
  induction ps using List.reverseRecOn with
  | nil =>
    refine ⟨List.Pairwise.nil, ?_, ?_, ?_⟩
    · intro x
      simp [find_node_groupings, mentionedSet, unionList]
    · intro g hg
      simp [find_node_groupings] at hg
    · intro g hg
      simp [find_node_groupings] at hg
  | append_singleton ps e ih =>
    rw [find_append]
    exact good_step ps (find_node_groupings ps) e ih

lemma touches_perm (ps ps' : List Endpoint) (h : ps.Perm ps') (x y : Nat) :
    touches ps x y ↔ touches ps' x y := by
  unfold touches
  constructor
  · rintro ⟨e, he, hx, hy⟩
    exact ⟨e, h.mem_iff.mp he, hx, hy⟩
  · rintro ⟨e, he, hx, hy⟩
    exact ⟨e, h.mem_iff.mpr he, hx, hy⟩

lemma Conn_perm (ps ps' : List Endpoint) (h : ps.Perm ps') (x y : Nat) :
    Conn ps x y ↔ Conn ps' x y :=
  ⟨Relation.ReflTransGen.mono (fun a b hab => (touches_perm ps ps' h a b).mp hab),
   Relation.ReflTransGen.mono (fun a b hab => (touches_perm ps ps' h a b).mpr hab)⟩

lemma mentionedSet_perm (ps ps' : List Endpoint) (h : ps.Perm ps') :
    mentionedSet ps = mentionedSet ps' := by
  ext x
  simp only [mentionedSet_mem]
  constructor
  · rintro ⟨e, he, hx⟩
    exact ⟨e, h.mem_iff.mp he, hx⟩
  · rintro ⟨e, he, hx⟩
    exact ⟨e, h.mem_iff.mpr he, hx⟩

lemma find_perm_mp (ps ps' : List Endpoint) (hp : ps.Perm ps') (g : Finset Nat)
    (hg : g ∈ find_node_groupings ps) : g ∈ find_node_groupings ps' := by
  obtain ⟨Hpw, Hcov, Hchar, Hne⟩ := good_find ps
  obtain ⟨Hpw', Hcov', Hchar', Hne'⟩ := good_find ps'
  obtain ⟨x, hx⟩ := Hne g hg
  have hxm : x ∈ mentionedSet ps := (Hcov x).mpr ⟨g, hg, hx⟩
  have hxm' : x ∈ mentionedSet ps' := by
    rw [← mentionedSet_perm ps ps' hp]
    exact hxm
  obtain ⟨g', hg', hx'⟩ := (Hcov' x).mp hxm'
  have hgg : g = g' := by
    ext y
    rw [Hchar g hg x hx y, Hchar' g' hg' x hx' y, Conn_perm ps ps' hp x y]
  rw [hgg]
  exact hg'

/-! ### Claim theorem C5 -/

/-- Claim C5: the connectivity resolver computes exactly the connected
components of the undirected direct-connection graph.  The resulting groups
are pairwise disjoint, they cover exactly the mentioned endpoint ids, each
group is precisely the connectivity class of each of its members, and the
resulting partition is the same for every traversal order of the endpoints. -/
theorem C5_connected_components :
    ∀ ps : List Endpoint,
      (find_node_groupings ps).Pairwise (fun a b => a ∩ b = ∅) ∧
      (∀ x, x ∈ mentionedSet ps ↔ ∃ g ∈ find_node_groupings ps, x ∈ g) ∧
      (∀ g ∈ find_node_groupings ps, ∀ x ∈ g, ∀ y, (y ∈ g ↔ Conn ps x y)) ∧
      (∀ ps', ps.Perm ps' →
        ∀ g, g ∈ find_node_groupings ps ↔ g ∈ find_node_groupings ps') := by
  intro ps
  obtain ⟨Hpw, Hcov, Hchar, Hne⟩ := good_find ps
  exact ⟨Hpw, Hcov, Hchar, fun ps' hp g =>
    ⟨fun h => find_perm_mp ps ps' hp g h, fun h => find_perm_mp ps' ps hp.symm g h⟩⟩

/-- Witness for C5 on the concrete two-component netlist
[endpoint 0 connected to 1, isolated endpoint 2]. -/
theorem C5_connected_components_witness :
    (1 ∈ ({0, 1} : Finset Nat) ↔ Conn [⟨0, {1}⟩, ⟨2, ∅⟩] 0 1) ∧
    ({0, 1} : Finset Nat) ∈ find_node_groupings [⟨2, ∅⟩, ⟨0, {1}⟩] :=
  ⟨(C5_connected_components [⟨0, {1}⟩, ⟨2, ∅⟩]).2.2.1 {0, 1} (by decide) 0 (by decide) 1,
   ((C5_connected_components [⟨0, {1}⟩, ⟨2, ∅⟩]).2.2.2 [⟨2, ∅⟩, ⟨0, {1}⟩] (by decide)
     {0, 1}).mp (by decide)⟩

end Metal
